import Mathlib

/-!
Verification development for the HospitalityChatBot RAG pipeline.

The definitions below are a shallow embedding of the JavaScript sources:
  * `src/rag/chunk.js`            (`chunkText`, the sliding-window chunker)
  * `src/rag/retrieve.js`         (`retrieveRelevantChunks`, aggregation fan-out variant)
  * `src/server.js`               (the `/chat` handler's below-threshold gate)
  * `src/rag/ingest.js`           (later variant: `makeChunkId`, `processFile`)

Strings are modelled as `List Char` (the sources only ever handle ASCII-ish
text; JavaScript's UTF-16 strings coincide with this model on such inputs).
JavaScript numbers are modelled as `Nat`/`Int`/`ℚ`, with the fractional
thresholds `maxChars * 0.5 / 0.6 / 0.7 / 0.8` rendered as exact rational
comparisons (`2*p > maxChars`, `10*p > 6*maxChars`, …); similarity scores are
modelled as `ℚ`.  `while` loops are rendered as fuel recursion, with the fuel
proved sufficient.
-/

namespace HFIM

/-! ## Character classes (JavaScript `\s`, `[A-Z]`, `[a-zA-Z]`, lower-casing) -/

/-- JavaScript `\s` restricted to ASCII: space, tab, newline, carriage return,
vertical tab, form feed.  (JS additionally matches some Unicode spaces; the
sources and all inputs considered here are ASCII.) -/
def isWS (c : Char) : Bool :=
  c == ' ' || c == '\t' || c == '\n' || c == '\r' || c == '\x0b' || c == '\x0c'

/-- Regex class `[A-Z]`. -/
def isUpper (c : Char) : Bool :=
  decide ('A' ≤ c) && decide (c ≤ 'Z')

/-- Regex class `[a-zA-Z]`. -/
def isLetterAZ (c : Char) : Bool :=
  (decide ('A' ≤ c) && decide (c ≤ 'Z')) || (decide ('a' ≤ c) && decide (c ≤ 'z'))

/-- ASCII lower-casing, as used by `String.prototype.toLowerCase` and the
case-insensitive regex flag on ASCII input. -/
def lowerCh (c : Char) : Char :=
  if decide ('A' ≤ c) && decide (c ≤ 'Z') then Char.ofNat (c.toNat + 32) else c

/-! ## Basic string (= `List Char`) operations mirroring the JS built-ins -/

/-- `s.slice(a, b)` for `0 ≤ a ≤ b` (the only shape used by `chunkText`). -/
def sliceL (l : List Char) (a b : Nat) : List Char :=
  (l.drop a).take (b - a)

/-- Does `pat` occur in `l` starting at index `i`?  (Full occurrence.) -/
def occursAtL (l pat : List Char) (i : Nat) : Bool :=
  (l.drop i).take pat.length == pat

/-- `String.prototype.startsWith`. -/
def startsWithL (l pre : List Char) : Bool :=
  l.take pre.length == pre

/-- `String.prototype.includes`: does `pat` occur at some position of `l`?
Single left-to-right pass. -/
def hasSub : List Char → List Char → Bool
  | [], pat => startsWithL [] pat
  | l@(_ :: t), pat => startsWithL l pat || hasSub t pat

/-- `String.prototype.lastIndexOf` (`-1` when `pat` does not occur). -/
def lastIndexOfL (l pat : List Char) : Int :=
  match ((List.range (l.length + 1)).filter (occursAtL l pat)).getLast? with
  | some i => Int.ofNat i
  | none => -1

/-- `startsWith` under ASCII case-folding (for `/i` regexes). -/
def lowerStartsWithL (l pre : List Char) : Bool :=
  (l.take pre.length).map lowerCh == pre

/-- `String.prototype.trim` (ASCII whitespace model). -/
def trimL (l : List Char) : List Char :=
  ((l.dropWhile isWS).reverse.dropWhile isWS).reverse

/-! ## `chunk.js` lines 4–9: whitespace normalization

```js
const clean = (text || '')
  .replace(/\r\n/g, '\n')
  .replace(/\n{3,}/g, '\n\n')
  .replace(/\s+/g, ' ')
  .replace(/\n\s*\n/g, '\n\n')
  .trim();
```
-/

/-- `.replace(/\r\n/g, '\n')`. -/
def replaceCRLF : List Char → List Char
  | [] => []
  | [c] => [c]
  | c :: d :: t =>
    if c = '\r' ∧ d = '\n' then '\n' :: replaceCRLF t else c :: replaceCRLF (d :: t)

/-- `.replace(/\n{3,}/g, '\n\n')`: in a maximal run of `k ≥ 3` newlines only the
first two survive.  `k` counts the newlines seen immediately before the head. -/
def collapseNL3Aux : Nat → List Char → List Char
  | _, [] => []
  | k, c :: t =>
    if c = '\n' then
      (if 2 ≤ k then collapseNL3Aux (k + 1) t else '\n' :: collapseNL3Aux (k + 1) t)
    else c :: collapseNL3Aux 0 t

/-- `.replace(/\s+/g, ' ')`: each maximal whitespace run becomes one space.
The boolean records whether the previous character was whitespace. -/
def collapseWSAux : Bool → List Char → List Char
  | _, [] => []
  | prevWS, c :: t =>
    if isWS c then
      (if prevWS then collapseWSAux true t else ' ' :: collapseWSAux true t)
    else c :: collapseWSAux false t

/-- Backtracking step of `/\n\s*\n/`: after an initial `'\n'`, the greedy `\s*`
takes the maximal whitespace run and backtracks to the last `'\n'` inside it.
Returns the rest of the input after the match, when the pattern matches. -/
def paraRunSplit (t : List Char) : Option (List Char) :=
  let run := t.takeWhile isWS
  match ((List.range run.length).filter (fun k => run[k]? == some '\n')).getLast? with
  | some k => some (t.drop (k + 1))
  | none => none

/-- `.replace(/\n\s*\n/g, '\n\n')`, fuel recursion (one fuel per character
consumed, so `length + 1` fuel always suffices). -/
def cleanParaAux : Nat → List Char → List Char
  | 0, l => l
  | _ + 1, [] => []
  | f + 1, c :: t =>
    if c = '\n' then
      match paraRunSplit t with
      | some rest => '\n' :: '\n' :: cleanParaAux f rest
      | none => c :: cleanParaAux f t
    else c :: cleanParaAux f t

def cleanParaBreaks (l : List Char) : List Char :=
  cleanParaAux (l.length + 1) l

/-- The full normalization of `chunk.js` lines 4–9. -/
def normalizeText (text : List Char) : List Char :=
  trimL (cleanParaBreaks (collapseWSAux false (collapseNL3Aux 0 (replaceCRLF text))))

/-! ## `chunk.js` lines 27–31: the source-attribution header

```js
const sourceMatch = clean.match(/^(#[^\n]+\n+)?Source:\s*(https?:\/\/[^\s\n]+)/);
const sourceHeader = sourceMatch ? sourceMatch[0] : '';
```
-/

def sourceTag : List Char := "Source:".toList

/-- Parse `\s*(https?:\/\/[^\s\n]+)` (case sensitive) at the head of `l`,
returning the matched characters.  `[^\s\n]` equals "not `\s`" since `\n ∈ \s`. -/
def urlTailMatch (l : List Char) : Option (List Char) :=
  let ws := l.takeWhile isWS
  let r := l.drop ws.length
  let scheme :=
    if startsWithL r "https://".toList then some "https://".toList
    else if startsWithL r "http://".toList then some "http://".toList
    else none
  match scheme with
  | none => none
  | some sch =>
    let body := (r.drop sch.length).takeWhile (fun c => !isWS c)
    if body.length = 0 then none else some (ws ++ sch ++ body)

/-- Overall match `match[0]` of the header regex against `clean` (`[]` when the
regex does not match).  The optional group `(#[^\n]+\n+)?` admits no real
backtracking: `[^\n]+` must run to the first newline and `\n+` must swallow the
whole newline run, since failing alternatives start with characters of the
wrong class. -/
def sourceHeaderOf (clean : List Char) : List Char :=
  let grouped : Option (List Char) :=
    match clean with
    | '#' :: t =>
      let line := t.takeWhile (fun c => c ≠ '\n')
      let rest := t.drop line.length
      let nls := rest.takeWhile (fun c => c = '\n')
      let rest2 := rest.drop nls.length
      if line.length = 0 ∨ nls.length = 0 then none
      else if startsWithL rest2 sourceTag then
        match urlTailMatch (rest2.drop sourceTag.length) with
        | some u => some ('#' :: line ++ nls ++ sourceTag ++ u)
        | none => none
      else none
    | _ => none
  match grouped with
  | some h => h
  | none =>
    if startsWithL clean sourceTag then
      match urlTailMatch (clean.drop sourceTag.length) with
      | some u => sourceTag ++ u
      | none => []
    else []

/-! ## `chunk.js` lines 42–116: the break-point priority cascade -/

def MIN_CHUNK_SIZE : Nat := 400

/-- Lines 46–51: all positions of `'\n\n'` in the window, in increasing order
(the JS loop restarts `indexOf` at `pos + 1`, so overlapping occurrences are
all collected).  Single left-to-right pass. -/
def paragraphBreaksGo (i : Nat) : List Char → List Nat
  | '\n' :: '\n' :: t => i :: paragraphBreaksGo (i + 1) ('\n' :: t)
  | _ :: t => paragraphBreaksGo (i + 1) t
  | [] => []

def paragraphBreakList (chunk : List Char) : List Nat :=
  paragraphBreaksGo 0 chunk

/-- Does `/[.!?](?:\s+[A-Z]|\s*$)/` match at the position whose character is
`c` and whose remaining suffix is `after`?
For `\s+[A-Z]` the greedy run must be the maximal one (shorter runs leave a
whitespace character where `[A-Z]` is required), so the test is: nonempty
whitespace run after the punctuation whose first following character is an
ASCII capital.  `\s*$` holds exactly when everything after the punctuation is
whitespace. -/
def sentenceHeadMatch (c : Char) (after : List Char) : Bool :=
  (c == '.' || c == '!' || c == '?') &&
    ((decide (0 < (after.takeWhile isWS).length) &&
        (match after.drop (after.takeWhile isWS).length with
         | d :: _ => isUpper d
         | [] => false)) ||
      after.all isWS)

/-- Single left-to-right pass collecting all positions where the sentence
regex matches. -/
def sentenceGo (i : Nat) : List Char → List Nat
  | [] => []
  | c :: after =>
    (if sentenceHeadMatch c after then [i] else []) ++ sentenceGo (i + 1) after

/-- Lines 66–71: `match.index + 1` for every match of the sentence regex (the
`exec` loop skips no punctuation position, since a match span contains no
further `[.!?]`). -/
def sentenceEndsList (chunk : List Char) : List Nat :=
  (sentenceGo 0 chunk).map (· + 1)

/-- `lastIndexOf` for a single character, as a linear scan. -/
def lastIdxChGo (c : Char) : Nat → Int → List Char → Int
  | _, best, [] => best
  | i, best, d :: t => lastIdxChGo c (i + 1) (if d == c then Int.ofNat i else best) t

def lastIndexOfCh (l : List Char) (c : Char) : Int :=
  lastIdxChGo c 0 (-1) l

/-- Lines 96–110: `chunk.split(/\s+/)` — pieces between maximal whitespace
runs, including the empty boundary pieces JS produces. -/
def splitWSAux (cur : List Char) (inSep : Bool) : List Char → List (List Char)
  | [] => [cur.reverse]
  | c :: t =>
    if isWS c then
      (if inSep then splitWSAux cur inSep t else cur.reverse :: splitWSAux [] true t)
    else splitWSAux (c :: cur) false t

def splitWS (l : List Char) : List (List Char) :=
  splitWSAux [] false l

/-- Lines 101–109: accumulate `words[i].length + 1` until the 80% target, then
`chunk.lastIndexOf(words[i]) + words[i].length`. -/
def wordWalkGo (chunk : List Char) (target : Nat) : Nat → List (List Char) → Int
  | _, [] => -1
  | acc, w :: ws =>
    let acc2 := acc + w.length + 1
    if target ≤ acc2 then lastIndexOfL chunk w + Int.ofNat w.length
    else wordWalkGo chunk target acc2 ws

/-- Lines 42–111: the four-priority break search.  Thresholds
`> maxChars*0.5 / 0.6 / 0.7` and `Math.floor(maxChars*0.8)` are modelled as
exact rational comparisons. -/
def findBestBreak (chunk : List Char) (maxChars : Nat) : Int :=
  match (paragraphBreakList chunk).reverse.find? (fun p => decide (maxChars < 2 * p)) with
  | some p => Int.ofNat p
  | none =>
    match (sentenceEndsList chunk).reverse.find? (fun p => decide (6 * maxChars < 10 * p)) with
    | some p => Int.ofNat p
    | none =>
      let ln := lastIndexOfCh chunk '\n'
      if 7 * (maxChars : Int) < 10 * ln then ln
      else
        let words := splitWS chunk
        if 10 < words.length then wordWalkGo chunk (4 * maxChars / 5) 0 words
        else -1

/-- Lines 113–116: `if (bestBreak > MIN_CHUNK_SIZE) chunk = chunk.slice(0, bestBreak).trim()`. -/
def applyBestBreak (chunk : List Char) (maxChars : Nat) : List Char :=
  if (MIN_CHUNK_SIZE : Int) < findBestBreak chunk maxChars then
    trimL (chunk.take (findBestBreak chunk maxChars).toNat)
  else chunk

/-! ## `chunk.js` lines 33–151: the sliding-window loop

The loop is rendered with fuel (one unit per iteration); the start position
grows by at least `MIN_CHUNK_SIZE` per iteration, so `clean.length` units are
always enough (theorem `chunkLoop_fuel_stable` below).  Besides the `chunks`
array the recursion also records a trace entry per iteration — window start,
the emitted chunk (if any), and the advance — so that the overlap/advance
behaviour is observable. -/

structure TraceEntry where
  tstart : Nat
  emitted : Option (List Char)
  advance : Nat
deriving Repr, DecidableEq

/-- Lines 34–41 and 119–120 of one loop iteration: the window slice, the
optional break-point cut, and the final trim. -/
def windowChunk (clean : List Char) (maxChars start : Nat) : List Char :=
  trimL
    (if min (start + maxChars) clean.length < clean.length ∧
        MIN_CHUNK_SIZE < (sliceL clean start (min (start + maxChars) clean.length)).length then
      applyBestBreak (sliceL clean start (min (start + maxChars) clean.length)) maxChars
    else sliceL clean start (min (start + maxChars) clean.length))

/-- Lines 124–127: re-prepend the source header to chunks after the first. -/
def emitChunk (hdr : List Char) (chunks : List (List Char)) (chunk2 : List Char) : List Char :=
  if chunks ≠ [] ∧ hdr ≠ [] ∧ ¬ startsWithL chunk2 sourceTag then
    hdr ++ '\n' :: '\n' :: chunk2
  else chunk2

/-- Lines 131–135: `minAdvance = Math.max(actualLength - overlap, MIN_CHUNK_SIZE)`,
where `actualLength` is the emitted chunk's length (header included). -/
def advanceOf (hdr : List Char) (chunks : List (List Char)) (chunk2 : List Char)
    (overlap : Nat) : Nat :=
  max ((emitChunk hdr chunks chunk2).length - overlap) MIN_CHUNK_SIZE

def chunkLoop (clean : List Char) (maxChars overlap : Nat) (hdr : List Char) :
    Nat → Nat → List (List Char) → List TraceEntry → List (List Char) × List TraceEntry
  | 0, _, chunks, tr => (chunks, tr)
  | fuel + 1, start, chunks, tr =>
    if start < clean.length then
      if MIN_CHUNK_SIZE ≤ (windowChunk clean maxChars start).length then
        if clean.length - 50 ≤
            start + advanceOf hdr chunks (windowChunk clean maxChars start) overlap then
          (chunks ++ [emitChunk hdr chunks (windowChunk clean maxChars start)],
           tr ++ [⟨start, some (emitChunk hdr chunks (windowChunk clean maxChars start)),
             advanceOf hdr chunks (windowChunk clean maxChars start) overlap⟩])
        else
          chunkLoop clean maxChars overlap hdr fuel
            (start + advanceOf hdr chunks (windowChunk clean maxChars start) overlap)
            (chunks ++ [emitChunk hdr chunks (windowChunk clean maxChars start)])
            (tr ++ [⟨start, some (emitChunk hdr chunks (windowChunk clean maxChars start)),
              advanceOf hdr chunks (windowChunk clean maxChars start) overlap⟩])
      else
        if clean.length - 50 ≤ start + MIN_CHUNK_SIZE then
          (chunks, tr ++ [⟨start, none, MIN_CHUNK_SIZE⟩])
        else
          chunkLoop clean maxChars overlap hdr fuel (start + MIN_CHUNK_SIZE) chunks
            (tr ++ [⟨start, none, MIN_CHUNK_SIZE⟩])
    else (chunks, tr)

/-! ## `chunk.js` lines 162–187: final validation filter -/

/-- `c.replace(/^.*?Source:\s*https?:\/\/[^\s\n]+\n*\/i, '')` matched at the
head of a suffix: succeeds when the suffix begins (case-insensitively) with
`Source:`, whitespace, a URL; returns the remainder after the match (which
also swallows the trailing `\n*`). -/
def tryAttrAt (l : List Char) : Option (List Char) :=
  if lowerStartsWithL l "source:".toList then
    let r := l.drop 7
    let ws := r.takeWhile isWS
    let r2 := r.drop ws.length
    let scheme :=
      if lowerStartsWithL r2 "https://".toList then some 8
      else if lowerStartsWithL r2 "http://".toList then some 7
      else none
    match scheme with
    | none => none
    | some n =>
      let body := (r2.drop n).takeWhile (fun c => !isWS c)
      if body.length = 0 then none
      else
        let r3 := (r2.drop n).drop body.length
        some (r3.drop (r3.takeWhile (fun c => c = '\n')).length)
  else none

/-- The lazy `^.*?` scans left to right over non-newline characters for the
first position where `tryAttrAt` succeeds. -/
def stripAttrGo : List Char → Option (List Char)
  | [] => none
  | c :: t =>
    match tryAttrAt (c :: t) with
    | some rest => some rest
    | none => if c = '\n' then none else stripAttrGo t

/-- Line 173: `contentWithoutSource`. -/
def stripAttr (c : List Char) : List Char :=
  (stripAttrGo c).getD c

/-- Line 177: `/[a-zA-Z]{10,}/.test(...)`. -/
def hasRealContent : List Char → Bool
  | [] => false
  | c :: t =>
    (((c :: t).take 10).length == 10 && ((c :: t).take 10).all isLetterAZ) ||
      hasRealContent t

/-- Lines 163–187: the final chunk filter. -/
def validChunk (c : List Char) : Bool :=
  decide (MIN_CHUNK_SIZE ≤ c.length) && hasRealContent (stripAttr c)

/-! ## `chunkText` itself (lines 2–193) -/

/-- Lines 153–187: drop an undersized trailing chunk, then apply the final
validation filter. -/
def chunkPost (chunks : List (List Char)) : List (List Char) :=
  (if 1 < chunks.length ∧ (chunks.getLast?.getD []).length < MIN_CHUNK_SIZE then
    chunks.dropLast
  else chunks).filter validChunk

def chunkText (text : List Char) (maxChars overlap : Nat) : List (List Char) :=
  if (normalizeText text).length < 100 then []
  else if (normalizeText text).length ≤ maxChars then [normalizeText text]
  else
    chunkPost
      (chunkLoop (normalizeText text) maxChars overlap (sourceHeaderOf (normalizeText text))
        (normalizeText text).length 0 [] []).1

/-- The per-iteration trace of the sliding-window loop (empty on the two early
returns, which run no loop). -/
def chunkTrace (text : List Char) (maxChars overlap : Nat) : List TraceEntry :=
  if (normalizeText text).length < 100 then []
  else if (normalizeText text).length ≤ maxChars then []
  else
    (chunkLoop (normalizeText text) maxChars overlap (sourceHeaderOf (normalizeText text))
      (normalizeText text).length 0 [] []).2

/-! ## Concrete test documents used by the claim theorems -/

/-- An 800-character prose prefix ending in a sentence boundary (`"ab."`
followed by `" B…"`), used as the first chunk of `wdoc`. -/
def wdocPart1 : List Char := "abcdefghijklmnop abcdefghi abcdefghi abcdefghi abcdefghi abcdefghi abcdefghi abcdefghi abcdefghi abcdefghi abcdefghi abcdefghi abcdefghi abcdefghi abcdefghi abcdefghi abcdefghi abcdefghi abcdefghi abcdefghi abcdefghi abcdefghi abcdefghi abcdefghi abcdefghi abcdefghi abcdefghi abcdefghi abcdefghi abcdefghi abcdefghi abcdefghi abcdefghi abcdefghi abcdefghi abcdefghi abcdefghi abcdefghi abcdefghi abcdefghi abcdefghi abcdefghi abcdefghi abcdefghi abcdefghi abcdefghi abcdefghi abcdefghi abcdefghi abcdefghi abcdefghi abcdefghi abcdefghi abcdefghi abcdefghi abcdefghi abcdefghi abcdefghi abcdefghi abcdefghi abcdefghi abcdefghi abcdefghi abcdefghi abcdefghi abcdefghi abcdefghi abcdefghi abcdefghi abcdefghi abcdefghi abcdefghi abcdefghi abcdefghi abcdefghi abcdefghi abcdefghi abcdefghi abcdefghi ab.".toList

/-- A 600-character continuation beginning with `" B"` so that the sentence
regex matches at position 799 of the first window. -/
def wdocPart2 : List Char := " Babcdefghijklmabcdefghi abcdefghi abcdefghi abcdefghi abcdefghi abcdefghi abcdefghi abcdefghi abcdefghi abcdefghi abcdefghi abcdefghi abcdefghi abcdefghi abcdefghi abcdefghi abcdefghi abcdefghi abcdefghi abcdefghi abcdefghi abcdefghi abcdefghi abcdefghi abcdefghi abcdefghi abcdefghi abcdefghi abcdefghi abcdefghi abcdefghi abcdefghi abcdefghi abcdefghi abcdefghi abcdefghi abcdefghi abcdefghi abcdefghi abcdefghi abcdefghi abcdefghi abcdefghi abcdefghi abcdefghi abcdefghi abcdefghi abcdefghi abcdefghi abcdefghi abcdefghi abcdefghi abcdefghi abcdefghi abcdefghi abcdefghi abcdefghi abcdefghi abcde".toList

/-- A 1400-character single-space-normalized document (no `Source:` header). -/
def wdoc : List Char := wdocPart1 ++ wdocPart2

/-- A 150-character document: above the 100-character floor, below
`MIN_CHUNK_SIZE`, and within `maxChars = 1200`. -/
def c3doc : List Char := "abcdefghijklmnop abcdefghi abcdefghi abcdefghi abcdefghi abcdefghi abcdefghi abcdefghi abcdefghi abcdefghi abcdefghi abcdefghi abcdefghi abcdefghi abc".toList

/-- A 441-character document whose first window is cut at the sentence end at
position 410, after which the safety break fires, dropping the tail. -/
def c10doc : List Char := "abcdefghijklmnop abcdefghi abcdefghi abcdefghi abcdefghi abcdefghi abcdefghi abcdefghi abcdefghi abcdefghi abcdefghi abcdefghi abcdefghi abcdefghi abcdefghi abcdefghi abcdefghi abcdefghi abcdefghi abcdefghi abcdefghi abcdefghi abcdefghi abcdefghi abcdefghi abcdefghi abcdefghi abcdefghi abcdefghi abcdefghi abcdefghi abcdefghi abcdefghi abcdefghi abcdefghi abcdefghi abcdefghi abcdefghi abcdefghi abcdefghi ab. Bqrstuvwxyzqrstuvwxyzqrstuvwxy".toList

/-- A 1400-character document with paragraph breaks (double newlines) at
positions 650 and 1302 — i.e. a paragraph break falls at or after 50% of
`maxChars = 1200` within the first window — and a sentence boundary at
normalized position 999. -/
def c1doc : List Char := "abcdefghijklmnop abcdefghi abcdefghi abcdefghi abcdefghi abcdefghi abcdefghi abcdefghi abcdefghi abcdefghi abcdefghi abcdefghi abcdefghi abcdefghi abcdefghi abcdefghi abcdefghi abcdefghi abcdefghi abcdefghi abcdefghi abcdefghi abcdefghi abcdefghi abcdefghi abcdefghi abcdefghi abcdefghi abcdefghi abcdefghi abcdefghi abcdefghi abcdefghi abcdefghi abcdefghi abcdefghi abcdefghi abcdefghi abcdefghi abcdefghi abcdefghi abcdefghi abcdefghi abcdefghi abcdefghi abcdefghi abcdefghi abcdefghi abcdefghi abcdefghi abcdefghi abcdefghi abcdefghi abcdefghi abcdefghi abcdefghi abcdefghi abcdefghi abcdefghi abcdefghi abcdefghi abcdefghi abcdefghi abcdefghi abc\n\nabcdefghi abcdefghi abcdefghi abcdefghi abcdefghi abcdefghi abcdefghi abcdefghi abcdefghi abcdefghi abcdefghi abcdefghi abcdefghi abcdefghi abcdefghi abcdefghi abcdefghi abcdefghi abcdefghi abcdefghi abcdefghi abcdefghi abcdefghi abcdefghi abcdefghi abcdefghi abcdefghi abcdefghi abcdefghi abcdefghi abcdefghi abcdefghi abcdefghi abcdefghi abcdefgh. Babcdefghijklmno abcdefghi abcdefghi abcdefghi abcdefghi abcdefghi abcdefghi abcdefghi abcdefghi abcdefghi abcdefghi abcdefghi abcdefghi abcdefghi abcdefghi abcdefghi abcdefghi abcdefghi abcdefghi abcdefghi abcdefghi abcdefghi abcdefghi abcdefghi abcdefghi abcdefghi abcdefghi abcdefghi abcdefghi abc\n\nabcdefghijklmnop abcdefghi abcdefghi abcdefghi abcdefghi abcdefghi abcdefghi abcdefghi abcdefghi".toList

/-! ## `src/rag/retrieve.js` (aggregation fan-out variant)

The OpenAI embedding call and the Pinecone `ns.query` call are opaque
collaborators; they are passed in as functions `embed : String → α` and
`query : α → Nat → List MatchRec` (`α` is the abstract vector type).
Similarity scores are modelled as `ℚ`. -/

structure MatchRec where
  mid : String
  score : ℚ
deriving Repr, DecidableEq

structure RetrievalResult where
  rmatches : List MatchRec
  belowThreshold : Bool
  topScore : ℚ
  isAggregation : Bool
deriving Repr, DecidableEq

/-- Lines 183–196 of the retriever: the fixed breadth keyword list. -/
def aggregationKeywords : List String :=
  ["top", "list", "all", "what internships", "past students", "examples of",
   "types of", "kinds of", "where have students", "placement", "companies",
   "organizations"]

/-- Lines 198–202: `isAggregationQuery` (`questionLower = q.toLowerCase()` is
modelled character-wise with the ASCII `lowerCh`). -/
def isAggregationQuery (q : String) : Bool :=
  aggregationKeywords.any (fun kw => hasSub (q.toList.map lowerCh) kw.toList) &&
    (hasSub (q.toList.map lowerCh) "internship".toList ||
      hasSub (q.toList.map lowerCh) "placement".toList)

/-- Lines 214–220: the five fan-out queries (the original question first). -/
def searchQueries (q : String) : List String :=
  [q,
   "internship report student placement HFIM",
   "student internship experience company organization",
   "HFIM hospitality food industry management internship",
   "internship placement location company worked"]

/-- Lines 222–245: the `seenIds` set — keep the first occurrence of each id. -/
def dedupByIdGo (seen : List String) : List MatchRec → List MatchRec
  | [] => []
  | m :: ms =>
    if m.mid ∈ seen then dedupByIdGo seen ms
    else m :: dedupByIdGo (m.mid :: seen) ms

def dedupById (ms : List MatchRec) : List MatchRec :=
  dedupByIdGo [] ms

/-- Descending-score order used by `.sort((a, b) => b.score - a.score)`. -/
def scoreGe (a b : MatchRec) : Prop := b.score ≤ a.score

instance : DecidableRel scoreGe := fun a b => inferInstanceAs (Decidable (b.score ≤ a.score))

instance : IsTotal MatchRec scoreGe := ⟨fun a b => le_total b.score a.score⟩

instance : IsTrans MatchRec scoreGe := ⟨fun _ _ _ h h2 => le_trans h2 h⟩

/-- `retrieveRelevantChunks(userQuestion, topK = 8)` — the aggregation-aware
variant.  `minSim` models `Number(process.env.MIN_SIMILARITY || 0.75)`. -/
def retrieveRelevantChunks {α : Type} (embed : String → α)
    (query : α → Nat → List MatchRec) (minSim : ℚ) (userQuestion : String)
    (topK : Nat) : RetrievalResult :=
  if isAggregationQuery userQuestion then
    let per := min (topK * 2) 20
    let allMatches := dedupById (((searchQueries userQuestion).map
      (fun sq => query (embed sq) per)).flatten)
    let sortedMatches := (List.insertionSort scoreGe allMatches).take (topK * 3)
    let threshold := minSim * (7 / 10)
    let topScore := ((sortedMatches.head?.map MatchRec.score).getD 0)
    ⟨sortedMatches, sortedMatches.isEmpty || decide (topScore < threshold), topScore, true⟩
  else
    let ms := query (embed userQuestion) topK
    let topScore := ((ms.head?.map MatchRec.score).getD 0)
    ⟨ms, ms.isEmpty || decide (topScore < minSim), topScore, false⟩

/-! ## `src/server.js` `/chat` handler, lines 325–446

Only the response selection is modelled: which answer text and sources the
endpoint sends, and whether `openai.chat.completions.create` is reached.
The generated answer (when the model is called) is abstracted as the
parameter `genAnswer`. -/

structure ChatReply where
  answer : String
  sources : List String
  modelCalled : Bool
deriving Repr, DecidableEq

/-- Line 338 of `server.js`. -/
def noInfoAnswer : String :=
  "I couldn't find that information in my sources. Could you clarify or ask something else?"

/-- Lines 329–330 of `server.js` (aggregation variant of the fixed answer). -/
def aggNoInfoAnswer : String :=
  "I couldn't find specific internship examples in my current database. The HFIM program offers various internship opportunities in hospitality, food service, event management, and related industries. For a complete list of internship placements and opportunities, I recommend contacting the HFIM program office directly."

/-- Lines 390–406: source deduplication by metadata url (modelled with the
match id standing in for the url field, which is all the claimed property
needs — the fixed-answer branch never reaches this). -/
def dedupeSources (ms : List MatchRec) : List String :=
  ((dedupById ms).map MatchRec.mid).take 3

/-- The `/chat` handler's response selection (lines 326–343 and the
fall-through to the model call at line 346).  `debugRag` is the
`DEBUG_RAG === 'true'` flag. -/
def chatHandler (debugRag : Bool) (ret : RetrievalResult) (genAnswer : String) : ChatReply :=
  if ret.belowThreshold && !debugRag then
    if ret.isAggregation then ⟨aggNoInfoAnswer, [], false⟩
    else ⟨noInfoAnswer, [], false⟩
  else ⟨genAnswer, dedupeSources ret.rmatches, true⟩

/-! ## `src/rag/ingest.js` (later variant): `makeChunkId` and the upsert ids

`makeChunkId` is `sha1(fileName + '|' + chunkIndex)` in hex, truncated to 20
characters.  SHA-1 is implemented below over byte lists (`Nat < 256`), with
32-bit words as `Nat` reduced `% 2^32`. -/

def M32 : Nat := 4294967296

def rotl32 (x k : Nat) : Nat :=
  ((x <<< k) % M32) ||| (x >>> (32 - k))

/-- UTF-8 encoding of one character (Node's default encoding for
`hash.update(string)`). -/
def utf8Char (c : Char) : List Nat :=
  let n := c.toNat
  if n < 128 then [n]
  else if n < 2048 then [192 ||| (n >>> 6), 128 ||| (n &&& 63)]
  else if n < 65536 then
    [224 ||| (n >>> 12), 128 ||| ((n >>> 6) &&& 63), 128 ||| (n &&& 63)]
  else
    [240 ||| (n >>> 18), 128 ||| ((n >>> 12) &&& 63), 128 ||| ((n >>> 6) &&& 63),
     128 ||| (n &&& 63)]

def utf8 (s : List Char) : List Nat :=
  (s.map utf8Char).flatten

def be64 (n : Nat) : List Nat :=
  [(n >>> 56) &&& 255, (n >>> 48) &&& 255, (n >>> 40) &&& 255, (n >>> 32) &&& 255,
   (n >>> 24) &&& 255, (n >>> 16) &&& 255, (n >>> 8) &&& 255, n &&& 255]

def be32 (n : Nat) : List Nat :=
  [(n >>> 24) &&& 255, (n >>> 16) &&& 255, (n >>> 8) &&& 255, n &&& 255]

def sha1Pad (msg : List Nat) : List Nat :=
  let zeros := (64 + 56 - (msg.length + 1) % 64) % 64
  msg ++ 128 :: List.replicate zeros 0 ++ be64 (8 * msg.length)

def toWords : List Nat → List Nat
  | a :: b :: c :: d :: t => (((a * 256 + b) * 256 + c) * 256 + d) :: toWords t
  | _ => []

def extGo : Nat → List Nat → List Nat
  | 0, acc => acc
  | k + 1, acc =>
    let n := acc.length
    let w := rotl32 ((acc.getD (n - 3) 0) ^^^ (acc.getD (n - 8) 0) ^^^
      (acc.getD (n - 14) 0) ^^^ (acc.getD (n - 16) 0)) 1
    extGo k (acc ++ [w])

def sha1F (t b c d : Nat) : Nat :=
  if t < 20 then (b &&& c) ||| ((b ^^^ (M32 - 1)) &&& d)
  else if t < 40 then b ^^^ c ^^^ d
  else if t < 60 then (b &&& c) ||| (b &&& d) ||| (c &&& d)
  else b ^^^ c ^^^ d

def sha1K (t : Nat) : Nat :=
  if t < 20 then 1518500249
  else if t < 40 then 1859775393
  else if t < 60 then 2400959708
  else 3395469782

def roundGo : Nat → List Nat → Nat × Nat × Nat × Nat × Nat → Nat × Nat × Nat × Nat × Nat
  | _, [], st => st
  | t, w :: ws, (a, b, c, d, e) =>
    let tmp := (rotl32 a 5 + sha1F t b c d + e + sha1K t + w) % M32
    roundGo (t + 1) ws (tmp, a, rotl32 b 30, c, d)

def sha1Block (h : Nat × Nat × Nat × Nat × Nat) (block : List Nat) :
    Nat × Nat × Nat × Nat × Nat :=
  let ws := extGo 64 (toWords block)
  let (a, b, c, d, e) := roundGo 0 ws h
  ((h.1 + a) % M32, (h.2.1 + b) % M32, (h.2.2.1 + c) % M32,
   (h.2.2.2.1 + d) % M32, (h.2.2.2.2 + e) % M32)

def blocksGo : Nat → Nat × Nat × Nat × Nat × Nat → List Nat → Nat × Nat × Nat × Nat × Nat
  | 0, st, _ => st
  | _ + 1, st, [] => st
  | f + 1, st, l => blocksGo f (sha1Block st (l.take 64)) (l.drop 64)

def sha1 (msg : List Nat) : List Nat :=
  let padded := sha1Pad msg
  let st := blocksGo (padded.length + 1)
    (1732584193, 4023233417, 2562383102, 271733878, 3285377520) padded
  be32 st.1 ++ be32 st.2.1 ++ be32 st.2.2.1 ++ be32 st.2.2.2.1 ++ be32 st.2.2.2.2

def hexDigit (n : Nat) : Char :=
  if n < 10 then Char.ofNat (48 + n) else Char.ofNat (87 + n)

def toHex (bytes : List Nat) : List Char :=
  (bytes.map (fun b => [hexDigit (b / 16), hexDigit (b % 16)])).flatten

/-- `makeChunkId` (ingest.js lines 48–54):
`sha1(fileName + '|' + chunkIndex)` hex digest, first 20 characters. -/
def makeChunkId (fileName : String) (chunkIndex : Nat) : List Char :=
  (toHex (sha1 (utf8 (fileName.toList ++ '|' :: (Nat.repr chunkIndex).toList)))).take 20

/-- `processFile`'s batch loop (ingest.js lines 230–245): for
`i = 0, 10, 20, …` the batch `chunks.slice(i, i + 10)` gets ids
`makeChunkId(fileName, i + idx)`.  Fuel recursion; one unit per batch. -/
def batchIdLoop (fileName : String) (total : Nat) : Nat → Nat → List (List Char)
  | 0, _ => []
  | fuel + 1, i =>
    if i < total then
      ((List.range (min 10 (total - i))).map (fun idx => makeChunkId fileName (i + idx))) ++
        batchIdLoop fileName total fuel (i + 10)
    else []

/-- The sequence of record ids upserted for one document by `processFile`
(later ingest variant, `MAX_CHARS = 1200`, `OVERLAP = 200`). -/
def ingestRecordIds (fileName : String) (rawText : List Char) : List (List Char) :=
  let total := (chunkText rawText 1200 200).length
  batchIdLoop fileName total (total + 1) 0

/-! ## General lemmas about the chunker -/

theorem trimL_length_le (l : List Char) : (trimL l).length ≤ l.length := by
  unfold trimL
  calc ((l.dropWhile isWS).reverse.dropWhile isWS).reverse.length
      = ((l.dropWhile isWS).reverse.dropWhile isWS).length := List.length_reverse _
    _ ≤ (l.dropWhile isWS).reverse.length := (List.dropWhile_sublist isWS).length_le
    _ = (l.dropWhile isWS).length := List.length_reverse _
    _ ≤ l.length := (List.dropWhile_sublist isWS).length_le

theorem trimL_mem {c : Char} {l : List Char} (h : c ∈ trimL l) : c ∈ l := by
  unfold trimL at h
  rw [List.mem_reverse] at h
  have h2 := (List.dropWhile_sublist (l := (l.dropWhile isWS).reverse) isWS).mem h
  rw [List.mem_reverse] at h2
  exact (List.dropWhile_sublist (l := l) isWS).mem h2

theorem sliceL_length_le (l : List Char) (a b : Nat) :
    (sliceL l a b).length ≤ b - a := by
  unfold sliceL
  exact List.length_take_le _ _

theorem applyBestBreak_length_le (c : List Char) (mc : Nat) :
    (applyBestBreak c mc).length ≤ c.length := by
  unfold applyBestBreak
  split
  · exact le_trans (trimL_length_le _) (List.take_sublist _ _).length_le
  · exact le_refl _

theorem windowChunk_length_le (clean : List Char) (mc start : Nat) :
    (windowChunk clean mc start).length ≤ mc := by
  unfold windowChunk
  have h0 : (sliceL clean start (min (start + mc) clean.length)).length ≤ mc := by
    refine le_trans (sliceL_length_le _ _ _) ?_
    omega
  refine le_trans (trimL_length_le _) ?_
  split
  · exact le_trans (applyBestBreak_length_le _ _) h0
  · exact h0

theorem emitChunk_cases (hdr : List Char) (chunks : List (List Char)) (c2 : List Char) :
    emitChunk hdr chunks c2 = c2 ∨
      (hdr ≠ [] ∧ emitChunk hdr chunks c2 = hdr ++ '\n' :: '\n' :: c2) := by
  unfold emitChunk
  split
  · next h => exact Or.inr ⟨h.2.1, rfl⟩
  · exact Or.inl rfl

theorem emitChunk_length_ge (hdr : List Char) (chunks : List (List Char)) (c2 : List Char) :
    c2.length ≤ (emitChunk hdr chunks c2).length := by
  rcases emitChunk_cases hdr chunks c2 with h | ⟨_, h⟩ <;> rw [h] <;> simp <;> omega

theorem advanceOf_ge (hdr : List Char) (chunks : List (List Char)) (c2 : List Char)
    (ov : Nat) : MIN_CHUNK_SIZE ≤ advanceOf hdr chunks c2 ov := by
  unfold advanceOf
  exact le_max_right _ _

/-- The per-chunk size bound maintained by the sliding-window loop: every
chunk in the result accumulator is at least `MIN_CHUNK_SIZE` long, and at most
`maxChars` long unless the nonempty source header was prepended to it. -/
theorem chunkLoop_mem_bound (clean : List Char) (mc ov : Nat) (hdr : List Char) :
    ∀ fuel start chunks tr,
      (∀ c ∈ chunks, MIN_CHUNK_SIZE ≤ c.length ∧
        (c.length ≤ mc ∨ (hdr ≠ [] ∧ c.take hdr.length = hdr))) →
      ∀ c ∈ (chunkLoop clean mc ov hdr fuel start chunks tr).1,
        MIN_CHUNK_SIZE ≤ c.length ∧
          (c.length ≤ mc ∨ (hdr ≠ [] ∧ c.take hdr.length = hdr)) := by
  intro fuel
  induction fuel with
  | zero => intro start chunks tr hacc; simpa [chunkLoop] using hacc
  | succ f ih =>
    intro start chunks tr hacc
    rw [chunkLoop]
    have hnew : MIN_CHUNK_SIZE ≤ (windowChunk clean mc start).length →
        (MIN_CHUNK_SIZE ≤ (emitChunk hdr chunks (windowChunk clean mc start)).length ∧
          ((emitChunk hdr chunks (windowChunk clean mc start)).length ≤ mc ∨
            (hdr ≠ [] ∧
              (emitChunk hdr chunks (windowChunk clean mc start)).take hdr.length = hdr))) := by
      intro hlen
      constructor
      · exact le_trans hlen (emitChunk_length_ge _ _ _)
      · rcases emitChunk_cases hdr chunks (windowChunk clean mc start) with h | ⟨hne, h⟩
        · rw [h]
          exact Or.inl (windowChunk_length_le clean mc start)
        · rw [h]
          refine Or.inr ⟨hne, ?_⟩
          have := List.take_left hdr ('\n' :: '\n' :: windowChunk clean mc start)
          exact this
    have hacc2 : MIN_CHUNK_SIZE ≤ (windowChunk clean mc start).length →
        ∀ c ∈ chunks ++ [emitChunk hdr chunks (windowChunk clean mc start)],
          MIN_CHUNK_SIZE ≤ c.length ∧
            (c.length ≤ mc ∨ (hdr ≠ [] ∧ c.take hdr.length = hdr)) := by
      intro hlen c hc
      rcases List.mem_append.1 hc with h | h
      · exact hacc c h
      · rcases List.mem_singleton.1 h with rfl
        exact hnew hlen
    split
    · split
      · next hlen =>
        split
        · exact hacc2 hlen
        · exact ih _ _ _ (hacc2 hlen)
      · split
        · exact hacc
        · exact ih _ _ _ hacc
    · exact hacc

/-- Successive trace entries: the later window starts where the earlier
window's advance put it. -/
def stepRel (e f : TraceEntry) : Prop := f.tstart = e.tstart + e.advance

theorem chunkLoop_trace_adv (clean : List Char) (mc ov : Nat) (hdr : List Char) :
    ∀ fuel start chunks tr,
      (∀ e ∈ tr, MIN_CHUNK_SIZE ≤ e.advance) →
      ∀ e ∈ (chunkLoop clean mc ov hdr fuel start chunks tr).2,
        MIN_CHUNK_SIZE ≤ e.advance := by
  intro fuel
  induction fuel with
  | zero => intro start chunks tr h; simpa [chunkLoop] using h
  | succ f ih =>
    intro start chunks tr h
    have hemit : ∀ e ∈ tr ++ [TraceEntry.mk start
        (some (emitChunk hdr chunks (windowChunk clean mc start)))
        (advanceOf hdr chunks (windowChunk clean mc start) ov)],
        MIN_CHUNK_SIZE ≤ e.advance := by
      intro e he
      rcases List.mem_append.1 he with h2 | h2
      · exact h e h2
      · rcases List.mem_singleton.1 h2 with rfl
        exact advanceOf_ge _ _ _ _
    have hskip : ∀ e ∈ tr ++ [TraceEntry.mk start none MIN_CHUNK_SIZE],
        MIN_CHUNK_SIZE ≤ e.advance := by
      intro e he
      rcases List.mem_append.1 he with h2 | h2
      · exact h e h2
      · rcases List.mem_singleton.1 h2 with rfl
        exact le_refl _
    rw [chunkLoop]
    split
    · split
      · split
        · exact hemit
        · exact ih _ _ _ hemit
      · split
        · exact hskip
        · exact ih _ _ _ hskip
    · exact h

/-- Every emitted trace entry's advance is exactly
`max(emittedChunk.length - overlap, MIN_CHUNK_SIZE)`. -/
theorem chunkLoop_trace_formula (clean : List Char) (mc ov : Nat) (hdr : List Char) :
    ∀ fuel start chunks tr,
      (∀ e ∈ tr, ∀ c, e.emitted = some c →
        e.advance = max (c.length - ov) MIN_CHUNK_SIZE) →
      ∀ e ∈ (chunkLoop clean mc ov hdr fuel start chunks tr).2, ∀ c, e.emitted = some c →
        e.advance = max (c.length - ov) MIN_CHUNK_SIZE := by
  intro fuel
  induction fuel with
  | zero => intro start chunks tr h; simpa [chunkLoop] using h
  | succ f ih =>
    intro start chunks tr h
    have hemit : ∀ e ∈ tr ++ [TraceEntry.mk start
        (some (emitChunk hdr chunks (windowChunk clean mc start)))
        (advanceOf hdr chunks (windowChunk clean mc start) ov)],
        ∀ c, e.emitted = some c → e.advance = max (c.length - ov) MIN_CHUNK_SIZE := by
      intro e he c hc
      rcases List.mem_append.1 he with h2 | h2
      · exact h e h2 c hc
      · rcases List.mem_singleton.1 h2 with rfl
        simp only [Option.some.injEq] at hc
        subst hc
        rfl
    have hskip : ∀ e ∈ tr ++ [TraceEntry.mk start none MIN_CHUNK_SIZE],
        ∀ c, e.emitted = some c → e.advance = max (c.length - ov) MIN_CHUNK_SIZE := by
      intro e he c hc
      rcases List.mem_append.1 he with h2 | h2
      · exact h e h2 c hc
      · rcases List.mem_singleton.1 h2 with rfl
        simp at hc
    rw [chunkLoop]
    split
    · split
      · split
        · exact hemit
        · exact ih _ _ _ hemit
      · split
        · exact hskip
        · exact ih _ _ _ hskip
    · exact h

theorem chunkLoop_trace_chain (clean : List Char) (mc ov : Nat) (hdr : List Char) :
    ∀ fuel start chunks tr,
      List.Chain' stepRel tr →
      (∀ e, tr.getLast? = some e → start = e.tstart + e.advance) →
      List.Chain' stepRel (chunkLoop clean mc ov hdr fuel start chunks tr).2 := by
  intro fuel
  induction fuel with
  | zero => intro start chunks tr h _; simpa [chunkLoop] using h
  | succ f ih =>
    intro start chunks tr hch hlast
    have hext : ∀ em adv, List.Chain' stepRel (tr ++ [TraceEntry.mk start em adv]) := by
      intro em adv
      rw [List.chain'_append]
      refine ⟨hch, List.chain'_singleton _, ?_⟩
      intro x hx y hy
      simp only [List.head?_cons, Option.mem_def, Option.some.injEq] at hy
      subst hy
      simp only [stepRel]
      exact hlast x hx
    have hlast2 : ∀ em adv,
        ∀ e, (tr ++ [TraceEntry.mk start em adv]).getLast? = some e →
          start + adv = e.tstart + e.advance := by
      intro em adv e he
      rw [List.getLast?_append_cons] at he
      simp only [List.getLast?_singleton, Option.some.injEq] at he
      subst he
      rfl
    rw [chunkLoop]
    split
    · split
      · split
        · exact hext _ _
        · exact ih _ _ _ (hext _ _) (hlast2 _ _)
      · split
        · exact hext _ _
        · exact ih _ _ _ (hext _ _) (hlast2 _ _)
    · exact hch

theorem chunkLoop_of_le_start (clean : List Char) (mc ov : Nat) (hdr : List Char)
    (fuel start : Nat) (chunks : List (List Char)) (tr : List TraceEntry)
    (h : clean.length ≤ start) :
    chunkLoop clean mc ov hdr fuel start chunks tr = (chunks, tr) := by
  cases fuel with
  | zero => rfl
  | succ f =>
    rw [chunkLoop]
    rw [if_neg (by omega)]

/-- Fuel sufficiency: once the fuel covers `⌈(length - start) / MIN_CHUNK_SIZE⌉`
iterations, adding more fuel does not change the result — i.e. the JS `while`
loop halts within that many iterations. -/
theorem chunkLoop_fuel_stable (clean : List Char) (mc ov : Nat) (hdr : List Char) :
    ∀ f g start chunks tr,
      clean.length ≤ start + MIN_CHUNK_SIZE * f →
      clean.length ≤ start + MIN_CHUNK_SIZE * g →
      chunkLoop clean mc ov hdr f start chunks tr =
        chunkLoop clean mc ov hdr g start chunks tr := by
  intro f
  induction f with
  | zero =>
    intro g start chunks tr hf _
    simp only [Nat.mul_zero, Nat.add_zero] at hf
    rw [chunkLoop_of_le_start clean mc ov hdr g start chunks tr hf]
    rfl
  | succ f ih =>
    intro g start chunks tr hf hg
    cases g with
    | zero =>
      simp only [Nat.mul_zero, Nat.add_zero] at hg
      rw [chunkLoop_of_le_start clean mc ov hdr (f + 1) start chunks tr hg]
      rfl
    | succ g =>
      rw [chunkLoop]
      conv_rhs => rw [chunkLoop]
      by_cases h1 : start < clean.length
      · rw [if_pos h1, if_pos h1]
        by_cases h2 : MIN_CHUNK_SIZE ≤ (windowChunk clean mc start).length
        · rw [if_pos h2, if_pos h2]
          by_cases h3 : clean.length - 50 ≤
              start + advanceOf hdr chunks (windowChunk clean mc start) ov
          · rw [if_pos h3, if_pos h3]
          · rw [if_neg h3, if_neg h3]
            have hadv := advanceOf_ge hdr chunks (windowChunk clean mc start) ov
            refine ih g _ _ _ ?_ ?_
            · have : MIN_CHUNK_SIZE * (f + 1) = MIN_CHUNK_SIZE + MIN_CHUNK_SIZE * f :=
                by ring
              omega
            · have : MIN_CHUNK_SIZE * (g + 1) = MIN_CHUNK_SIZE + MIN_CHUNK_SIZE * g :=
                by ring
              omega
        · rw [if_neg h2, if_neg h2]
          by_cases h3 : clean.length - 50 ≤ start + MIN_CHUNK_SIZE
          · rw [if_pos h3, if_pos h3]
          · rw [if_neg h3, if_neg h3]
            refine ih g _ _ _ ?_ ?_
            · have : MIN_CHUNK_SIZE * (f + 1) = MIN_CHUNK_SIZE + MIN_CHUNK_SIZE * f :=
                by ring
              omega
            · have : MIN_CHUNK_SIZE * (g + 1) = MIN_CHUNK_SIZE + MIN_CHUNK_SIZE * g :=
                by ring
              omega
      · rw [if_neg h1, if_neg h1]

/-- Linear bound on the number of emitted chunks: each iteration advances the
window start by at least `MIN_CHUNK_SIZE` while emitting at most one chunk. -/
theorem chunkLoop_count (clean : List Char) (mc ov : Nat) (hdr : List Char) :
    ∀ fuel start chunks tr,
      MIN_CHUNK_SIZE * (chunkLoop clean mc ov hdr fuel start chunks tr).1.length ≤
        MIN_CHUNK_SIZE * chunks.length + (clean.length - start) + MIN_CHUNK_SIZE := by
  intro fuel
  induction fuel with
  | zero => intro start chunks tr; simp only [chunkLoop]; omega
  | succ f ih =>
    intro start chunks tr
    rw [chunkLoop]
    by_cases h1 : start < clean.length
    · rw [if_pos h1]
      by_cases h2 : MIN_CHUNK_SIZE ≤ (windowChunk clean mc start).length
      · rw [if_pos h2]
        by_cases h3 : clean.length - 50 ≤
            start + advanceOf hdr chunks (windowChunk clean mc start) ov
        · rw [if_pos h3]
          simp only [List.length_append, List.length_cons, List.length_nil]
          have hmul : MIN_CHUNK_SIZE * (chunks.length + (0 + 1)) =
              MIN_CHUNK_SIZE * chunks.length + MIN_CHUNK_SIZE := by ring
          omega
        · rw [if_neg h3]
          have hadv := advanceOf_ge hdr chunks (windowChunk clean mc start) ov
          refine le_trans (ih _ _ _) ?_
          simp only [List.length_append, List.length_cons, List.length_nil]
          have hmul : MIN_CHUNK_SIZE * (chunks.length + (0 + 1)) =
              MIN_CHUNK_SIZE * chunks.length + MIN_CHUNK_SIZE := by ring
          omega
      · rw [if_neg h2]
        by_cases h3 : clean.length - 50 ≤ start + MIN_CHUNK_SIZE
        · rw [if_pos h3]
          dsimp only
          omega
        · rw [if_neg h3]
          refine le_trans (ih _ _ _) ?_
          omega
    · rw [if_neg h1]
      dsimp only
      omega

/-! ## The normalization step destroys every newline -/

theorem collapseWSAux_no_nl : ∀ (b : Bool) (l : List Char), '\n' ∉ collapseWSAux b l := by
  intro b l
  induction l generalizing b with
  | nil => simp [collapseWSAux]
  | cons c t ih =>
    simp only [collapseWSAux]
    split
    · split
      · exact ih true
      · intro h
        rcases List.mem_cons.1 h with h | h
        · exact absurd h (by decide)
        · exact ih true h
    · next hc =>
      intro h
      rcases List.mem_cons.1 h with h | h
      · rw [← h] at hc
        exact hc (by decide)
      · exact ih false h

theorem cleanParaAux_eq_of_no_nl : ∀ (f : Nat) (l : List Char), '\n' ∉ l →
    cleanParaAux f l = l := by
  intro f
  induction f with
  | zero => intro l _; rfl
  | succ f ih =>
    intro l hl
    cases l with
    | nil => rfl
    | cons c t =>
      simp only [cleanParaAux]
      have hc : ¬ c = '\n' := by
        intro h
        exact hl (by rw [← h]; exact List.mem_cons_self _ _)
      rw [if_neg hc, ih t (fun h => hl (List.mem_cons_of_mem _ h))]

/-- The `.replace(/\s+/g, ' ')` step (line 7 of `chunk.js`) replaces every
whitespace character — newlines included — by a plain space, so the normalized
text contains no newline at all.  Consequently no window ever contains a
paragraph break `'\n\n'` and the paragraph-priority cut of lines 45–61 can
never fire. -/
theorem normalizeText_no_nl (t : List Char) : '\n' ∉ normalizeText t := by
  unfold normalizeText cleanParaBreaks
  intro h
  have h1 := trimL_mem h
  rw [cleanParaAux_eq_of_no_nl _ _
    (collapseWSAux_no_nl false (collapseNL3Aux 0 (replaceCRLF t)))] at h1
  exact collapseWSAux_no_nl false (collapseNL3Aux 0 (replaceCRLF t)) h1

/-! ## Membership facts about the post-processing -/

theorem chunkPost_mem {c : List Char} {l : List (List Char)} (h : c ∈ chunkPost l) :
    c ∈ l := by
  unfold chunkPost at h
  have h2 := List.mem_of_mem_filter h
  split at h2
  · exact (List.dropLast_sublist l).mem h2
  · exact h2

theorem chunkPost_length_le (l : List (List Char)) : (chunkPost l).length ≤ l.length := by
  unfold chunkPost
  refine le_trans (List.length_filter_le _ _) ?_
  split
  · exact le_trans (List.dropLast_sublist l).length_le (le_refl _)
  · exact le_refl _

/-! ## Claim theorems -/

set_option maxRecDepth 1000000 in
set_option maxHeartbeats 16000000 in
/-- C1 (code_bug): the spec requires that a paragraph break (double newline)
at or after 50% of `maxChars` in the current window is the preferred cut
point.  In the code this can never happen: normalization line 7
(`replace(/\s+/g, ' ')`) erases every newline, so (first conjunct) the
normalized text of any document contains no newline at all, and the
paragraph cascade of lines 45–61 is dead code.  Concretely: `c1doc` has a
raw paragraph break at position 650 ≥ 600 = 50 % of `maxChars = 1200`
(second conjunct, with the break inside the first window), yet the
normalized document contains no `'\n\n'` (third conjunct), the first
window contains no paragraph break position (fourth conjunct), and the
run cuts the first chunk at the sentence boundary — chunk lengths
`[1000, 597]`, not at the paragraph break 650 (fifth conjunct). -/
theorem claim_C1_paragraph_priority_dead_code :
    (∀ text : List Char, '\n' ∉ normalizeText text) ∧
    occursAtL c1doc ['\n', '\n'] 650 = true ∧
    hasSub (normalizeText c1doc) ['\n', '\n'] = false ∧
    paragraphBreakList ((normalizeText c1doc).take 1200) = [] ∧
    (chunkText c1doc 1200 200).map List.length = [1000, 597] := by
  exact ⟨normalizeText_no_nl, by decide, by decide, by decide, by decide⟩

set_option maxRecDepth 1000000 in
set_option maxHeartbeats 16000000 in
/-- C3 counterexample: the claim's lower bound `MIN_CHUNK_SIZE ≤ len(c)`
fails on the single-chunk path: a 150-character document (above the
100-character floor, within `maxChars`) is returned as one chunk of length
150 < 400. -/
theorem claim_C3_counterexample_singleton :
    chunkText c3doc 1200 200 = [c3doc] ∧
    c3doc.length = 150 ∧ c3doc.length < MIN_CHUNK_SIZE := by
  exact ⟨by decide, by decide, by decide⟩

/-- C3 (amended): on the sliding-window path — i.e. whenever the normalized
text is longer than `maxChars` — every emitted chunk `c` satisfies
`MIN_CHUNK_SIZE ≤ len(c)`, and `len(c) ≤ maxChars` unless the nonempty
source-attribution header was re-prepended to it (in which case `c` begins
with that header).  (The claim as frozen also asserted the lower bound for
the short-document single-chunk path, which the counterexample refutes.) -/
theorem claim_C3_bounded_chunk_size (text : List Char) (mc ov : Nat) (c : List Char)
    (hmc : mc < (normalizeText text).length)
    (hc : c ∈ chunkText text mc ov) :
    MIN_CHUNK_SIZE ≤ c.length ∧
      (c.length ≤ mc ∨ (sourceHeaderOf (normalizeText text) ≠ [] ∧
        c.take (sourceHeaderOf (normalizeText text)).length =
          sourceHeaderOf (normalizeText text))) := by
  unfold chunkText at hc
  split at hc
  · simp at hc
  · split at hc
    · omega
    · have hmem := chunkPost_mem hc
      exact chunkLoop_mem_bound (normalizeText text) mc ov
        (sourceHeaderOf (normalizeText text)) (normalizeText text).length 0 [] []
        (by intro c hc2; simp at hc2) c hmem

set_option maxRecDepth 1000000 in
set_option maxHeartbeats 16000000 in
/-- Witness for `claim_C3_bounded_chunk_size` at `wdoc`, `maxChars = 1200`,
`overlap = 200`, chunk `wdocPart1`. -/
theorem claim_C3_bounded_chunk_size_witness :
    MIN_CHUNK_SIZE ≤ wdocPart1.length ∧
      (wdocPart1.length ≤ 1200 ∨ (sourceHeaderOf (normalizeText wdoc) ≠ [] ∧
        wdocPart1.take (sourceHeaderOf (normalizeText wdoc)).length =
          sourceHeaderOf (normalizeText wdoc))) :=
  claim_C3_bounded_chunk_size wdoc 1200 200 wdocPart1 (by decide) (by decide)

set_option maxRecDepth 1000000 in
set_option maxHeartbeats 16000000 in
/-- C10: `chunkText` does not cover its input.  For `c10doc` (441 normalized
characters, longer than `maxChars = 420`) the run emits exactly one chunk
(the first 410 characters, cut at the sentence boundary), the loop's safety
break then fires, and the nonempty 31-character tail
`sliceL (normalizeText c10doc) 410 441` occurs in no emitted chunk. -/
theorem claim_C10_tail_dropped :
    (normalizeText c10doc).length = 441 ∧
    chunkText c10doc 420 200 = [c10doc.take 410] ∧
    sliceL (normalizeText c10doc) 410 441 ≠ [] ∧
    (chunkText c10doc 420 200).all
      (fun c => !(hasSub c (sliceL (normalizeText c10doc) 410 441))) = true := by
  exact ⟨by decide, by decide, by decide, by decide⟩

theorem chain_rel_of_getElem {α : Type} {R : α → α → Prop} :
    ∀ (l : List α), List.Chain' R l → ∀ (i : Nat) (a b : α),
      l[i]? = some a → l[i + 1]? = some b → R a b := by
  intro l
  induction l with
  | nil => intro _ i a b h1 _; simp at h1
  | cons x t ih =>
    intro hch i a b h1 h2
    cases t with
    | nil =>
      cases i with
      | zero => simp at h2
      | succ n => simp at h1
    | cons y t2 =>
      have hch2 := List.chain'_cons.1 hch
      cases i with
      | zero =>
        simp only [List.getElem?_cons_zero, Option.some.injEq] at h1
        simp only [List.getElem?_cons_succ, List.getElem?_cons_zero,
          Option.some.injEq] at h2
        subst h1
        subst h2
        exact hch2.1
      | succ n =>
        rw [List.getElem?_cons_succ] at h1
        rw [List.getElem?_cons_succ] at h2
        exact ih hch2.2 n a b h1 h2

set_option maxRecDepth 1000000 in
set_option maxHeartbeats 16000000 in
/-- C4 counterexample: with `overlap = 0` the advance step after emitting a
chunk equals the chunk's length (`max(len - 0, 400) = len`), so it is **not**
strictly less than `len(c_i)` even though an adjacent next chunk is emitted
and no source header is involved: on `wdoc` the first trace entry emits
`wdocPart1` (length 800) with advance exactly `wdocPart1.length`, and the
second trace entry also emits a chunk. -/
theorem claim_C4_counterexample_zero_overlap :
    sourceHeaderOf (normalizeText wdoc) = [] ∧
    (chunkTrace wdoc 1200 0)[0]? =
      some ⟨0, some wdocPart1, wdocPart1.length⟩ ∧
    ((chunkTrace wdoc 1200 0)[1]?.bind TraceEntry.emitted).isSome = true ∧
    ((chunkTrace wdoc 1200 0).head?.map
      (fun e => decide (e.advance < (e.emitted.getD []).length))) = some false := by
  exact ⟨by decide, by decide, by decide, by decide⟩

/-- C4 (amended): for consecutive iterations of the sliding-window loop (no
source header present), when iteration `i` emits chunk `c` the advance step
is exactly `max(len(c) - overlap, MIN_CHUNK_SIZE)`, the next window starts
that far along — and the step is strictly less than `len(c)` **provided**
`overlap ≥ 1` and `len(c) > MIN_CHUNK_SIZE` (the claim as frozen asserted
strictness unconditionally, which the `overlap = 0` counterexample refutes;
a chunk of length exactly 400 equally gives `step = len`). -/
theorem claim_C4_advance_step (text : List Char) (mc ov i : Nat) (e1 e2 : TraceEntry)
    (c : List Char)
    (hhdr : sourceHeaderOf (normalizeText text) = [])
    (h1 : (chunkTrace text mc ov)[i]? = some e1)
    (h2 : (chunkTrace text mc ov)[i + 1]? = some e2)
    (hc : e1.emitted = some c) :
    e1.advance = max (c.length - ov) MIN_CHUNK_SIZE ∧
    e2.tstart = e1.tstart + e1.advance ∧
    (1 ≤ ov → MIN_CHUNK_SIZE < c.length → e1.advance < c.length) := by
  have he1mem : e1 ∈ chunkTrace text mc ov := by
    rcases List.getElem?_eq_some.1 h1 with ⟨hl, rfl⟩
    exact List.getElem_mem hl
  have hformula : e1.advance = max (c.length - ov) MIN_CHUNK_SIZE := by
    unfold chunkTrace at he1mem
    split at he1mem
    · simp at he1mem
    · split at he1mem
      · simp at he1mem
      · exact chunkLoop_trace_formula (normalizeText text) mc ov
          (sourceHeaderOf (normalizeText text)) (normalizeText text).length 0 [] []
          (by intro e he; simp at he) e1 he1mem c hc
  have hchain : List.Chain' stepRel (chunkTrace text mc ov) := by
    unfold chunkTrace
    split
    · exact List.chain'_nil
    · split
      · exact List.chain'_nil
      · exact chunkLoop_trace_chain (normalizeText text) mc ov
          (sourceHeaderOf (normalizeText text)) (normalizeText text).length 0 [] []
          List.chain'_nil (by intro e he; simp at he)
  have hstep : stepRel e1 e2 := chain_rel_of_getElem _ hchain i e1 e2 h1 h2
  refine ⟨hformula, hstep, ?_⟩
  intro hov hlen
  rw [hformula]
  exact Nat.max_lt.2 ⟨by omega, hlen⟩

set_option maxRecDepth 1000000 in
set_option maxHeartbeats 16000000 in
/-- Witness for `claim_C4_advance_step` at `wdoc`, `maxChars = 1200`,
`overlap = 200`, `i = 0`. -/
theorem claim_C4_advance_step_witness :
    (TraceEntry.mk 0 (some wdocPart1) 600).advance =
      max (wdocPart1.length - 200) MIN_CHUNK_SIZE ∧
    (TraceEntry.mk 600 (some ((wdoc.drop 600).take 800)) 600).tstart =
      (TraceEntry.mk 0 (some wdocPart1) 600).tstart +
        (TraceEntry.mk 0 (some wdocPart1) 600).advance ∧
    (1 ≤ 200 → MIN_CHUNK_SIZE < wdocPart1.length →
      (TraceEntry.mk 0 (some wdocPart1) 600).advance < wdocPart1.length) :=
  claim_C4_advance_step wdoc 1200 200 0 (TraceEntry.mk 0 (some wdocPart1) 600)
    (TraceEntry.mk 600 (some ((wdoc.drop 600).take 800)) 600) wdocPart1
    (by decide) (by decide) (by decide) (by decide)

/-- C5: the chunker terminates and is linear.  First conjunct: the loop's
result is independent of the fuel once the fuel covers
`(normalized length) / MIN_CHUNK_SIZE` iterations — i.e. the `while` loop
halts within that many iterations, because (third conjunct) every iteration
advances the window start by at least `MIN_CHUNK_SIZE = 400`.  Second
conjunct: the number of emitted chunks is linearly bounded by the normalized
input length. -/
theorem claim_C5_termination (text : List Char) (mc ov : Nat) :
    (∀ f g : Nat,
      (normalizeText text).length ≤ MIN_CHUNK_SIZE * f →
      (normalizeText text).length ≤ MIN_CHUNK_SIZE * g →
      chunkLoop (normalizeText text) mc ov (sourceHeaderOf (normalizeText text))
          f 0 [] [] =
        chunkLoop (normalizeText text) mc ov (sourceHeaderOf (normalizeText text))
          g 0 [] []) ∧
    MIN_CHUNK_SIZE * (chunkText text mc ov).length ≤
      (normalizeText text).length + MIN_CHUNK_SIZE ∧
    (∀ e ∈ chunkTrace text mc ov, MIN_CHUNK_SIZE ≤ e.advance) := by
  refine ⟨?_, ?_, ?_⟩
  · intro f g hf hg
    exact chunkLoop_fuel_stable (normalizeText text) mc ov
      (sourceHeaderOf (normalizeText text)) f g 0 [] [] (by omega) (by omega)
  · unfold chunkText
    split
    · simp
    · split
      · next h1 h2 =>
        simp only [List.length_singleton]
        omega
      · refine le_trans (Nat.mul_le_mul_left _ (chunkPost_length_le _)) ?_
        have := chunkLoop_count (normalizeText text) mc ov
          (sourceHeaderOf (normalizeText text)) (normalizeText text).length 0 [] []
        simpa using this
  · intro e he
    unfold chunkTrace at he
    split at he
    · simp at he
    · split at he
      · simp at he
      · exact chunkLoop_trace_adv (normalizeText text) mc ov
          (sourceHeaderOf (normalizeText text)) (normalizeText text).length 0 [] []
          (by intro e2 he2; simp at he2) e he

set_option maxRecDepth 1000000 in
set_option maxHeartbeats 16000000 in
/-- Witness for `claim_C5_termination` at `wdoc`, `maxChars = 1200`,
`overlap = 200`, instantiating the fuel-stability conjunct at fuels 4 and 10. -/
theorem claim_C5_termination_witness :
    chunkLoop (normalizeText wdoc) 1200 200 (sourceHeaderOf (normalizeText wdoc))
        4 0 [] [] =
      chunkLoop (normalizeText wdoc) 1200 200 (sourceHeaderOf (normalizeText wdoc))
        10 0 [] [] ∧
    MIN_CHUNK_SIZE * (chunkText wdoc 1200 200).length ≤
      (normalizeText wdoc).length + MIN_CHUNK_SIZE :=
  ⟨(claim_C5_termination wdoc 1200 200).1 4 10 (by decide) (by decide),
   (claim_C5_termination wdoc 1200 200).2.1⟩

/-! ## Concrete retrieval oracles used by witnesses and counterexamples -/

/-- A fixed descending ranking of 25 distinct records; `cexQuery` truncates it
to the requested `topK`, the behaviour of a real vector index over a fixed
corpus. -/
def fixedMatches : List MatchRec :=
  (List.range 25).map (fun i => ⟨Nat.repr i, ((100 - i : Nat) : ℚ)⟩)

def cexQuery : Unit → Nat → List MatchRec := fun _ k => fixedMatches.take k

/-- An oracle returning no matches at all. -/
def emptyQuery : Unit → Nat → List MatchRec := fun _ _ => []

/-! ## C2: the `/chat` below-threshold gate -/

/-- C2 counterexample: the fixed-answer gate is `if (belowThreshold &&
!DEBUG_RAG)` (`server.js` line 326), so with `DEBUG_RAG` set a request whose
retrieval comes back `belowThreshold = true` still reaches the
answer-generation model, contradicting the claim as frozen. -/
theorem claim_C2_counterexample_debug_bypass :
    (retrieveRelevantChunks (fun _ : String => ()) emptyQuery (3/4) "hello" 8).belowThreshold
      = true ∧
    (chatHandler true
      (retrieveRelevantChunks (fun _ : String => ()) emptyQuery (3/4) "hello" 8)
      "model answer").modelCalled = true ∧
    (chatHandler true
      (retrieveRelevantChunks (fun _ : String => ()) emptyQuery (3/4) "hello" 8)
      "model answer").answer = "model answer" := by
  exact ⟨by decide, by decide, by decide⟩

/-- C2 (amended): when retrieval reports `belowThreshold = true` **and the
`DEBUG_RAG` flag is off**, the `/chat` handler answers with the fixed
"couldn't find" text (the aggregation variant of it when `isAggregation`),
an empty sources list, and no call to the answer-generation model.  (The
claim as frozen omitted the `DEBUG_RAG` condition, which the counterexample
refutes.) -/
theorem claim_C2_below_threshold_fixed_answer (ret : RetrievalResult) (g : String)
    (h : ret.belowThreshold = true) :
    chatHandler false ret g =
      ⟨if ret.isAggregation then aggNoInfoAnswer else noInfoAnswer, [], false⟩ := by
  unfold chatHandler
  rw [h]
  simp only [Bool.not_false, Bool.and_true, if_true]
  split
  · rfl
  · rfl

/-- Witness for `claim_C2_below_threshold_fixed_answer` on a concrete
below-threshold retrieval (empty index). -/
theorem claim_C2_below_threshold_fixed_answer_witness :
    chatHandler false
        (retrieveRelevantChunks (fun _ : String => ()) emptyQuery (3/4) "hello" 8)
        "model answer" =
      ⟨if (retrieveRelevantChunks (fun _ : String => ()) emptyQuery (3/4) "hello" 8).isAggregation
        then aggNoInfoAnswer else noInfoAnswer, [], false⟩ :=
  claim_C2_below_threshold_fixed_answer
    (retrieveRelevantChunks (fun _ : String => ()) emptyQuery (3/4) "hello" 8)
    "model answer" (by decide)

/-! ## C6: the aggregation classification -/

/-- C6: a question is classified as an aggregation query — and the retrieval
result's `isAggregation` flag is set — exactly when its lower-cased text
contains at least one keyword of the fixed breadth set **and** contains
`"internship"` or `"placement"`. -/
theorem claim_C6_aggregation_classification (α : Type) (embed : String → α)
    (query : α → Nat → List MatchRec) (minSim : ℚ) (q : String) (topK : Nat) :
    (retrieveRelevantChunks embed query minSim q topK).isAggregation = true ↔
      ((∃ kw ∈ aggregationKeywords, hasSub (q.toList.map lowerCh) kw.toList = true) ∧
        (hasSub (q.toList.map lowerCh) "internship".toList = true ∨
          hasSub (q.toList.map lowerCh) "placement".toList = true)) := by
  have hflag : (retrieveRelevantChunks embed query minSim q topK).isAggregation =
      isAggregationQuery q := by
    unfold retrieveRelevantChunks
    split
    · next h2 => dsimp only; exact h2.symm
    · next h2 =>
      dsimp only
      simp only [Bool.not_eq_true] at h2
      exact h2.symm
  rw [hflag]
  unfold isAggregationQuery
  rw [Bool.and_eq_true, List.any_eq_true, Bool.or_eq_true]

/-! ## C9: deterministic record ids -/

theorem batchIdLoop_eq (fileName : String) (total : Nat) :
    ∀ fuel i, total ≤ i + 10 * fuel →
      batchIdLoop fileName total fuel i =
        (List.range' i (total - i)).map (makeChunkId fileName) := by
  intro fuel
  induction fuel with
  | zero =>
    intro i h
    simp only [Nat.mul_zero, Nat.add_zero] at h
    rw [batchIdLoop]
    have : total - i = 0 := by omega
    rw [this]
    rfl
  | succ f ih =>
    intro i h
    rw [batchIdLoop]
    by_cases hi : i < total
    · rw [if_pos hi, ih (i + 10) (by omega)]
      have hmap : ∀ n : Nat, (List.range n).map (fun idx => makeChunkId fileName (i + idx)) =
          (List.range' i n).map (makeChunkId fileName) := by
        intro n
        rw [List.range'_eq_map_range, List.map_map]
        rfl
      by_cases h10 : total - i ≤ 10
      · have hmin : min 10 (total - i) = total - i := by omega
        have hz : total - (i + 10) = 0 := by omega
        rw [hmin, hz, hmap]
        simp
      · have hmin : min 10 (total - i) = 10 := by omega
        rw [hmin, hmap]
        rw [← List.map_append]
        have := List.range'_append i 10 (total - (i + 10)) 1
        simp only [Nat.mul_one, Nat.one_mul] at this
        rw [show i + 10 * 1 = i + 10 from by omega] at this
        rw [this]
        congr 2
        omega
    · rw [if_neg hi]
      have : total - i = 0 := by omega
      rw [this]
      rfl

/-- C9: the record ids upserted for a document are exactly
`makeChunkId fileName i` for `i = 0, …, chunkCount - 1` — a deterministic
function of the source file name and chunk index alone, so re-running
ingestion over the same unchanged document reproduces the identical id
sequence. -/
theorem claim_C9_deterministic_ids (fileName : String) (rawText : List Char) :
    ingestRecordIds fileName rawText =
      (List.range ((chunkText rawText 1200 200).length)).map (makeChunkId fileName) := by
  unfold ingestRecordIds
  rw [batchIdLoop_eq fileName _ _ 0 (by omega)]
  rw [Nat.sub_zero, ← List.range_eq_range']

set_option maxRecDepth 1000000 in
/-- The SHA-1-based id model agrees with `crypto.createHash('sha1')` on a
concrete input: `sha1("file.md|3")` in hex starts `7f2ff55671b0fca2ec2f`. -/
example : makeChunkId "file.md" 3 = "7f2ff55671b0fca2ec2f".toList := by decide

/-! ## Lemmas about the aggregation merge (`seenIds` deduplication) -/

theorem dedupByIdGo_find : ∀ (l : List MatchRec) (seen : List String), ∀ m ∈ dedupByIdGo seen l,
    m.mid ∉ seen ∧ l.find? (fun x => x.mid == m.mid) = some m := by
  intro l
  induction l with
  | nil => intro seen m hm; simp [dedupByIdGo] at hm
  | cons x t ih =>
    intro seen m hm
    rw [dedupByIdGo] at hm
    split at hm
    · next hx =>
      obtain ⟨hns, hfind⟩ := ih seen m hm
      refine ⟨hns, ?_⟩
      rw [List.find?_cons_of_neg, hfind]
      simp only [beq_iff_eq]
      intro heq
      rw [← heq] at hns
      exact hns hx
    · next hx =>
      rcases List.mem_cons.1 hm with rfl | hm2
      · refine ⟨hx, ?_⟩
        rw [List.find?_cons_of_pos]
        simp
      · obtain ⟨hns, hfind⟩ := ih (x.mid :: seen) m hm2
        have hne : m.mid ≠ x.mid := fun h => hns (h ▸ List.mem_cons_self _ _)
        refine ⟨fun h => hns (List.mem_cons_of_mem _ h), ?_⟩
        rw [List.find?_cons_of_neg, hfind]
        simp only [beq_iff_eq]
        exact fun h => hne h.symm

theorem dedupByIdGo_nodup : ∀ (l : List MatchRec) (seen : List String),
    ((dedupByIdGo seen l).map MatchRec.mid).Nodup := by
  intro l
  induction l with
  | nil => intro seen; simp [dedupByIdGo]
  | cons x t ih =>
    intro seen
    rw [dedupByIdGo]
    split
    · exact ih seen
    · simp only [List.map_cons, List.nodup_cons]
      refine ⟨?_, ih _⟩
      intro hmem
      rcases List.mem_map.1 hmem with ⟨m, hm, hmid⟩
      have h2 := (dedupByIdGo_find t (x.mid :: seen) m hm).1
      exact h2 (hmid ▸ List.mem_cons_self _ _)

theorem dedupByIdGo_length_ge : ∀ (L0 R : List MatchRec) (seen : List String),
    (L0.map MatchRec.mid).Nodup → (∀ m ∈ L0, m.mid ∉ seen) →
    L0.length ≤ (dedupByIdGo seen (L0 ++ R)).length := by
  intro L0
  induction L0 with
  | nil => intro R seen _ _; simp
  | cons x t ih =>
    intro R seen hnd hs
    rw [List.cons_append, dedupByIdGo, if_neg (hs x (List.mem_cons_self _ _))]
    simp only [List.length_cons]
    rw [List.map_cons, List.nodup_cons] at hnd
    refine Nat.succ_le_succ (ih R (x.mid :: seen) hnd.2 ?_)
    intro m hm hmem
    rcases List.mem_cons.1 hmem with heq | hmem2
    · have h3 : m.mid ∈ t.map MatchRec.mid := List.mem_map_of_mem _ hm
      exact hnd.1 (heq ▸ h3)
    · exact hs m (List.mem_cons_of_mem _ hm) hmem2

/-- C7: on the aggregation path the returned match list is sorted in
descending score order, holds at most `3 × topK` matches, has pairwise
distinct ids, each returned match is exactly the first occurrence of its id
in the concatenated fan-out results (first occurrence wins), and
`belowThreshold` is computed against the relaxed threshold
`minSim × 0.7` (base `minSim` defaulting to 0.75 in the source). -/
theorem claim_C7_aggregation_merge (α : Type) (embed : String → α)
    (query : α → Nat → List MatchRec) (minSim : ℚ) (q : String) (topK : Nat)
    (r : RetrievalResult)
    (hr : r = retrieveRelevantChunks embed query minSim q topK)
    (hagg : isAggregationQuery q = true) :
    r.rmatches.Sorted scoreGe ∧
    r.rmatches.length ≤ 3 * topK ∧
    (r.rmatches.map MatchRec.mid).Nodup ∧
    (∀ m ∈ r.rmatches,
      (((searchQueries q).map (fun sq => query (embed sq) (min (topK * 2) 20))).flatten).find?
        (fun x => x.mid == m.mid) = some m) ∧
    (r.belowThreshold = true ↔ (r.rmatches = [] ∨ r.topScore < minSim * (7 / 10))) ∧
    r.topScore = (r.rmatches.head?.map MatchRec.score).getD 0 := by
  subst hr
  unfold retrieveRelevantChunks
  rw [if_pos hagg]
  dsimp only
  refine ⟨?_, ?_, ?_, ?_, ?_, rfl⟩
  · exact List.Pairwise.sublist (List.take_sublist _ _) (List.sorted_insertionSort scoreGe _)
  · exact le_trans (List.length_take_le _ _) (by omega)
  · have h1 := dedupByIdGo_nodup
      (((searchQueries q).map (fun sq => query (embed sq) (min (topK * 2) 20))).flatten) []
    have h2 := ((List.perm_insertionSort scoreGe _).map MatchRec.mid).nodup_iff.2 h1
    exact List.Nodup.sublist ((List.take_sublist _ _).map MatchRec.mid) h2
  · intro m hm
    have hm2 := (List.take_sublist _ _).mem hm
    have hm3 := (List.perm_insertionSort scoreGe _).mem_iff.1 hm2
    exact (dedupByIdGo_find _ [] m hm3).2
  · constructor
    · intro hb
      rcases Bool.or_eq_true_iff.1 hb with h | h
      · exact Or.inl (by simpa using h)
      · exact Or.inr (of_decide_eq_true h)
    · intro hb
      rcases hb with h | h
      · rw [h]; rfl
      · exact Bool.or_eq_true_iff.2 (Or.inr (decide_eq_true h))

set_option maxRecDepth 1000000 in
/-- Witness for `claim_C7_aggregation_merge` on the fixed-ranking oracle with
`topK = 2`. -/
theorem claim_C7_aggregation_merge_witness :
    (retrieveRelevantChunks (fun _ : String => ()) cexQuery (3/4)
      "list all internship placements" 2).rmatches.Sorted scoreGe ∧
    (retrieveRelevantChunks (fun _ : String => ()) cexQuery (3/4)
      "list all internship placements" 2).rmatches.length ≤ 3 * 2 ∧
    ((retrieveRelevantChunks (fun _ : String => ()) cexQuery (3/4)
      "list all internship placements" 2).rmatches.map MatchRec.mid).Nodup ∧
    (∀ m ∈ (retrieveRelevantChunks (fun _ : String => ()) cexQuery (3/4)
        "list all internship placements" 2).rmatches,
      (((searchQueries "list all internship placements").map
        (fun sq => cexQuery ((fun _ : String => ()) sq) (min (2 * 2) 20))).flatten).find?
          (fun x => x.mid == m.mid) = some m) ∧
    ((retrieveRelevantChunks (fun _ : String => ()) cexQuery (3/4)
        "list all internship placements" 2).belowThreshold = true ↔
      ((retrieveRelevantChunks (fun _ : String => ()) cexQuery (3/4)
        "list all internship placements" 2).rmatches = [] ∨
       (retrieveRelevantChunks (fun _ : String => ()) cexQuery (3/4)
        "list all internship placements" 2).topScore < (3/4) * (7 / 10))) ∧
    (retrieveRelevantChunks (fun _ : String => ()) cexQuery (3/4)
        "list all internship placements" 2).topScore =
      ((retrieveRelevantChunks (fun _ : String => ()) cexQuery (3/4)
        "list all internship placements" 2).rmatches.head?.map MatchRec.score).getD 0 :=
  claim_C7_aggregation_merge Unit (fun _ => ()) cexQuery (3/4)
    "list all internship placements" 2 _ rfl (by decide)

set_option maxRecDepth 1000000 in
/-- C8 counterexample: with `topK = 25` the aggregation path queries the
index with `min(topK*2, 20) = 20` per fan-out query, so against an index
that rank-truncates a fixed 25-record corpus the aggregation path yields
only 20 unique matches while the single-query path would return 25 — the
claimed inequality fails. -/
theorem claim_C8_counterexample_topk_cap :
    isAggregationQuery "list all internship placements" = true ∧
    (retrieveRelevantChunks (fun _ : String => ()) cexQuery (3/4)
      "list all internship placements" 25).rmatches.length <
      (cexQuery () 25).length := by
  exact ⟨by decide, by decide⟩

/-- C8 (amended): for a question classified as aggregation, the aggregation
path returns at least as many (unique) matches as the single-query path
would, **provided** `topK ≤ 20` (so the per-query fan-out `topK` is not
capped below it) and the query oracle behaves like a vector index: it
returns at most `k` matches for `topK = k`, is rank-monotone in `k`
(smaller `k` gives a prefix of larger `k`), and never returns duplicate
ids.  (The claim as frozen quantified over every oracle behaviour and every
`topK`, which the counterexample refutes.) -/
theorem claim_C8_aggregation_recall (α : Type) (embed : String → α)
    (query : α → Nat → List MatchRec) (minSim : ℚ) (q : String) (topK : Nat)
    (hagg : isAggregationQuery q = true)
    (htop : topK ≤ 20)
    (hlen : (query (embed q) topK).length ≤ topK)
    (hmono : ∀ k1 k2 : Nat, k1 ≤ k2 → ∃ t, query (embed q) k2 = query (embed q) k1 ++ t)
    (hnodup : ((query (embed q) (min (topK * 2) 20)).map MatchRec.mid).Nodup) :
    (query (embed q) topK).length ≤
      (retrieveRelevantChunks embed query minSim q topK).rmatches.length := by
  unfold retrieveRelevantChunks
  rw [if_pos hagg]
  dsimp only
  obtain ⟨t, ht⟩ := hmono topK (min (topK * 2) 20) (by omega)
  have hnodup_single : ((query (embed q) topK).map MatchRec.mid).Nodup := by
    rw [ht, List.map_append] at hnodup
    exact hnodup.of_append_left
  obtain ⟨rest, hpool⟩ : ∃ rest,
      ((searchQueries q).map (fun sq => query (embed sq) (min (topK * 2) 20))).flatten =
        query (embed q) topK ++ rest := by
    refine ⟨t ++ ((["internship report student placement HFIM",
      "student internship experience company organization",
      "HFIM hospitality food industry management internship",
      "internship placement location company worked"]).map
        (fun sq => query (embed sq) (min (topK * 2) 20))).flatten, ?_⟩
    simp only [searchQueries, List.map_cons, List.flatten_cons]
    rw [ht, List.append_assoc]
  rw [hpool, List.length_take]
  refine le_min ?_ ?_
  · omega
  · rw [(List.perm_insertionSort scoreGe _).length_eq]
    exact dedupByIdGo_length_ge _ rest [] hnodup_single (by simp)

set_option maxRecDepth 1000000 in
/-- Witness for `claim_C8_aggregation_recall` on the fixed-ranking oracle
with `topK = 2`. -/
theorem claim_C8_aggregation_recall_witness :
    (cexQuery ((fun _ : String => ()) "list all internship placements") 2).length ≤
      (retrieveRelevantChunks (fun _ : String => ()) cexQuery (3/4)
        "list all internship placements" 2).rmatches.length :=
  claim_C8_aggregation_recall Unit (fun _ => ()) cexQuery (3/4)
    "list all internship placements" 2 (by decide) (by decide) (by decide)
    (fun k1 k2 h => ⟨(fixedMatches.take k2).drop k1, by
      show fixedMatches.take k2 = fixedMatches.take k1 ++ (fixedMatches.take k2).drop k1
      have h2 : (fixedMatches.take k2).take k1 = fixedMatches.take k1 := by
        rw [List.take_take, min_eq_left h]
      rw [← h2, List.take_append_drop]⟩)
    (by decide)

end HFIM
